import Mathlib

/-!
Shallow embedding of the notebook driver code of the Quantum_Workshop
repository (CUDA Quantum notebook `cudaq_tutorial_04.ipynb` and PennyLane
notebook `Lab2 - PennyLane and cuQuantum.ipynb`), together with proofs of
the properties claimed of it.

A parameter matrix is a `List (List ℚ)`: the outer list is the sample rows,
the inner list a row of rotation angles.  Python floats are modelled as
rationals; the external simulation framework's calls are modelled as
abstract function parameters.
-/

namespace QuantumWorkshop

/-- One equal-size chunk pass of NumPy's `np.split`: produce `k` chunks of
`size` elements each, taking them from the front of `xs` in order. -/
def chunkExact (size : Nat) : Nat → List α → List (List α)
  | 0, _ => []
  | k + 1, xs => xs.take size :: chunkExact size k (xs.drop size)

/-- NumPy's `np.split(xs, k)` for a one-axis split into `k` equal sections: defined
(`some`) exactly when `k` is nonzero and divides `len(xs)`; a ragged split
raises in NumPy, modelled by `none`. -/
def npSplit (xs : List α) (k : Nat) : Option (List (List α)) :=
  if k ≠ 0 ∧ xs.length % k = 0 then some (chunkExact (xs.length / k) k xs) else none

theorem chunkExact_length (size : Nat) :
    ∀ (k : Nat) (xs : List α), (chunkExact size k xs).length = k := by
  intro k
  induction k with
  | zero => intro xs; rfl
  | succ n ih => intro xs; simp [chunkExact, ih]

theorem chunkExact_flatten (size : Nat) :
    ∀ (k : Nat) (xs : List α), xs.length = k * size →
      (chunkExact size k xs).flatten = xs := by
  intro k
  induction k with
  | zero =>
      intro xs h
      simp at h
      simp [chunkExact, h]
  | succ n ih =>
      intro xs h
      have hdrop : (xs.drop size).length = n * size := by
        simp [List.length_drop, h, Nat.succ_mul]
      simp [chunkExact, ih (xs.drop size) hdrop]

theorem chunkExact_mem_subset (size : Nat) :
    ∀ (k : Nat) (xs : List α) (b : List α), b ∈ chunkExact size k xs → ∀ a ∈ b, a ∈ xs := by
  intro k
  induction k with
  | zero => intro xs b hb; simp [chunkExact] at hb
  | succ n ih =>
      intro xs b hb a ha
      simp only [chunkExact, List.mem_cons] at hb
      rcases hb with hb | hb
      · exact List.take_subset size xs (hb ▸ ha)
      · exact List.drop_subset size xs (ih (xs.drop size) b hb a ha)

theorem chunkExact_mem_length (size : Nat) :
    ∀ (k : Nat) (xs : List α), xs.length = k * size →
      ∀ b ∈ chunkExact size k xs, b.length = size := by
  intro k
  induction k with
  | zero => intro xs _ b hb; simp [chunkExact] at hb
  | succ n ih =>
      intro xs h b hb
      have hdrop : (xs.drop size).length = n * size := by
        simp [List.length_drop, h, Nat.succ_mul]
      simp only [chunkExact, List.mem_cons] at hb
      rcases hb with hb | hb
      · subst hb
        simp [List.length_take, h, Nat.succ_mul]
      · exact ih (xs.drop size) hdrop b hb

theorem npSplit_isSome_iff (xs : List α) (k : Nat) (hk : k ≠ 0) :
    (npSplit xs k).isSome ↔ xs.length % k = 0 := by
  constructor
  · intro h
    by_contra hmod
    simp [npSplit, hk, hmod] at h
  · intro hmod
    simp [npSplit, hk, hmod]

theorem npSplit_flatten (xs : List α) (k : Nat) (hk : k ≠ 0)
    (hmod : xs.length % k = 0) :
    ((npSplit xs k).getD []).flatten = xs := by
  have hlen : xs.length = k * (xs.length / k) := by
    rw [Nat.mul_div_cancel' (Nat.dvd_of_mod_eq_zero hmod)]
  simp only [npSplit, hk, hmod, and_self, if_pos, ne_eq, not_false_iff, Option.getD_some]
  exact chunkExact_flatten _ k xs (by rw [Nat.mul_comm] at hlen; rw [Nat.mul_comm]; exact hlen)

/-- A pending asynchronous result handle, as returned by
`cudaq.observe_async(kernel, h, row, qpu_id = i)`: the device tag the job was
submitted with and the parameter row it was submitted for.  The circuit and
observable are fixed throughout a given loop, so they are not part of the
handle. -/
structure AsyncJob (α : Type) where
  qpu_id : Nat
  params : α
  deriving Repr, DecidableEq

/-- The nested submission loop
`for i in range(len(xi)): for j in range(xi[i].shape[0]): asyncresults.append(observe_async(..., xi[i][j,:], qpu_id = i))`,
started at batch index `i`. -/
def submitFrom (i : Nat) : List (List α) → List (AsyncJob α)
  | [] => []
  | b :: rest => b.map (fun r => ⟨i, r⟩) ++ submitFrom (i + 1) rest

/-- The `asyncresults` list built by the submission loop over all batches. -/
def submitLoop (xi : List (List α)) : List (AsyncJob α) :=
  submitFrom 0 xi

/-- The collection loop `for res in asyncresults: expvals.append(res.get().expectation_z())`,
with `res.get().expectation_z()` abstracted as the external function `get`. -/
def collectLoop (get : AsyncJob α → β) (asyncresults : List (AsyncJob α)) : List β :=
  asyncresults.map get

theorem submitFrom_length (i : Nat) :
    ∀ (xi : List (List α)), (submitFrom i xi).length = (xi.map List.length).sum := by
  intro xi
  induction xi generalizing i with
  | nil => rfl
  | cons b rest ih => simp [submitFrom, ih]

theorem mem_submitFrom (job : AsyncJob α) :
    ∀ (i : Nat) (xi : List (List α)),
      job ∈ submitFrom i xi ↔
        ∃ j, ∃ h : j < xi.length, job.qpu_id = i + j ∧ job.params ∈ xi.get ⟨j, h⟩ := by
  intro i xi
  induction xi generalizing i with
  | nil => simp [submitFrom]
  | cons b rest ih =>
      simp only [submitFrom, List.mem_append, List.mem_map, ih (i + 1)]
      constructor
      · rintro (⟨r, hr, rfl⟩ | ⟨j, hj, hq, hp⟩)
        · exact ⟨0, by simp, by simp, by simpa using hr⟩
        · refine ⟨j + 1, by simpa using hj, by omega, ?_⟩
          simpa using hp
      · rintro ⟨j, hj, hq, hp⟩
        cases j with
        | zero =>
            left
            refine ⟨job.params, by simpa using hp, ?_⟩
            have : job.qpu_id = i := by omega
            cases job
            simp_all
        | succ j =>
            right
            exact ⟨j, by simpa using hj, by omega, by simpa using hp⟩

/-- The result of running an append loop `for x in xs: out.append(f(x))` over
fallible calls: the list of values appended before the first raising call,
and the exception that escaped the loop, if any.  The loop stops at the first
error and never retries a call. -/
def runAppend (f : α → Except ε β) : List α → List β × Option ε
  | [] => ([], none)
  | a :: as =>
    match f a with
    | .error e => ([], some e)
    | .ok v =>
      let p := runAppend f as
      (v :: p.1, p.2)

/-- The inner submission loop over the rows of one batch `b`, tagged with
device index `i`, when `observe_async` itself may raise: `dispatch i r` is
the (fallible) external call. -/
def runRows (dispatch : Nat → α → Except ε φ) (i : Nat) : List α → List φ × Option ε
  | [] => ([], none)
  | r :: rs =>
    match dispatch i r with
    | .error e => ([], some e)
    | .ok job =>
      let p := runRows dispatch i rs
      (job :: p.1, p.2)

/-- The outer submission loop over the batches, starting at batch index `i`,
when `observe_async` may raise: an exception escaping the inner loop aborts
the whole nested loop. -/
def runSubmit (dispatch : Nat → α → Except ε φ) (i : Nat) : List (List α) → List φ × Option ε
  | [] => ([], none)
  | b :: rest =>
    let p := runRows dispatch i b
    match p.2 with
    | some e => (p.1, some e)
    | none =>
      let q := runSubmit dispatch (i + 1) rest
      (p.1 ++ q.1, q.2)

/-- The `(qpu_id, row)` pairs visited by the nested submission loop, in
visit order, starting at batch index `i`. -/
def pairsFrom (i : Nat) : List (List α) → List (Nat × α)
  | [] => []
  | b :: rest => b.map (fun r => (i, r)) ++ pairsFrom (i + 1) rest

theorem runAppend_append (f : α → Except ε β) :
    ∀ (as bs : List α),
      runAppend f (as ++ bs) =
        match runAppend f as with
        | (vs, some e) => (vs, some e)
        | (vs, none) =>
          let q := runAppend f bs
          (vs ++ q.1, q.2) := by
  intro as bs
  induction as with
  | nil => simp [runAppend]
  | cons a as ih =>
      simp only [List.cons_append, runAppend]
      cases hfa : f a with
      | error e => simp
      | ok v =>
          simp only [List.append_eq]
          rw [ih]
          cases hr : runAppend f as with
          | mk vs err => cases err <;> simp

theorem runRows_eq_runAppend (dispatch : Nat → α → Except ε φ) (i : Nat) :
    ∀ (b : List α),
      runRows dispatch i b = runAppend (fun p => dispatch p.1 p.2) (b.map (fun r => (i, r))) := by
  intro b
  induction b with
  | nil => rfl
  | cons r rs ih =>
      simp only [List.map_cons, runRows, runAppend]
      cases dispatch i r with
      | error e => rfl
      | ok v => rw [ih]

theorem runSubmit_eq_runAppend (dispatch : Nat → α → Except ε φ) :
    ∀ (i : Nat) (xi : List (List α)),
      runSubmit dispatch i xi = runAppend (fun p => dispatch p.1 p.2) (pairsFrom i xi) := by
  intro i xi
  induction xi generalizing i with
  | nil => rfl
  | cons b rest ih =>
      simp only [runSubmit, pairsFrom, runAppend_append, runRows_eq_runAppend, ih (i + 1)]
      cases hr : runAppend (fun p => dispatch p.1 p.2) (b.map (fun r => (i, r))) with
      | mk vs err => cases err <;> simp

theorem runAppend_ok_initial_error (f : α → Except ε β) (e : ε) :
    ∀ (pre : List α) (a : α) (post : List α),
      (∀ x ∈ pre, (f x).toOption.isSome) → f a = .error e →
        runAppend f (pre ++ a :: post) =
          (pre.filterMap (fun x => (f x).toOption), some e) := by
  intro pre a post hpre ha
  induction pre with
  | nil => simp [runAppend, ha]
  | cons x xs ih =>
      have hx : (f x).toOption.isSome := hpre x (List.mem_cons_self x xs)
      obtain ⟨v, hv⟩ := Option.isSome_iff_exists.mp hx
      have hfx : f x = .ok v := by
        cases hfx : f x with
        | error e => rw [hfx] at hv; simp [Except.toOption] at hv
        | ok w => rw [hfx] at hv; simp [Except.toOption] at hv; rw [hv]
      simp only [List.cons_append, runAppend, hfx, List.append_eq]
      rw [ih (fun y hy => hpre y (List.mem_cons_of_mem x hy))]
      simp [List.filterMap_cons, hfx, Except.toOption]

/-- A gate appended to a CUDA Quantum kernel by the notebook: the rotation
gates carry the index into the kernel's list parameter (`params[p]`) and the
target qubit; `cz` carries its two qubit indices and consumes no parameter. -/
inductive Gate where
  | rx (p q : Nat)
  | ry (p q : Nat)
  | rz (p q : Nat)
  | cz (a b : Nat)
  deriving Repr, DecidableEq

/-- The parameter indices a gate reads from the kernel's list argument. -/
def gateParamIndices : Gate → List Nat
  | .rx p _ => [p]
  | .ry p _ => [p]
  | .rz p _ => [p]
  | .cz _ _ => []

/-- All parameter indices a kernel reads, in gate order. -/
def usedParamIndices (k : List Gate) : List Nat :=
  (k.map gateParamIndices).flatten

/-- The number of parameters a kernel consumes from its list argument: one
past the largest index read (0 for a parameterless kernel). -/
def paramCount (k : List Gate) : Nat :=
  (usedParamIndices k).foldr (fun p m => max (p + 1) m) 0

/-- The entangling layer `for q1, q2 in zip(qubits_list[0::2], qubits_list[1::2]): kernel.cz(...)`:
`cz` on the pairs `(0,1), (2,3), ...`. -/
def czLayer (n : Nat) : List Gate :=
  (List.range (n / 2)).map fun i => Gate.cz (2 * i) (2 * i + 1)

/-- The kernel built in the 20-qubit and 10-qubit cells: an `rx`, `ry` and
`rz` rotation per qubit, reading `params[i]`, `params[i + n_qubits]` and
`params[i + n_qubits*2]`, followed by the `cz` layer. -/
def makeKernel (n : Nat) : List Gate :=
  ((List.range n).map fun i => Gate.rx i i)
    ++ ((List.range n).map fun i => Gate.ry (i + n) i)
    ++ ((List.range n).map fun i => Gate.rz (i + n * 2) i)
    ++ czLayer n

/-- The kernels `kernel1` and `kernel2` of the two-kernel cell: one `rx`
rotation per qubit, reading `params[i]`. -/
def rxKernel (n : Nat) : List Gate :=
  (List.range n).map fun i => Gate.rx i i

/-- The call `np.random.default_rng(seed).uniform(low=0, high=1, size=(rows, cols))`.
A fresh generator is constructed from `seed` alone, so the draws depend only
on the seed and the position of the draw; the external PCG64 bit stream is
abstracted as the pure function `pcg` from the seed and the draw index to
the drawn value.  Draws fill the `rows × cols` array row by row. -/
def default_rng_uniform (pcg : Nat → Nat → ℚ) (seed rows cols : Nat) : List (List ℚ) :=
  (List.range rows).map fun i => (List.range cols).map fun j => pcg seed (i * cols + j)

/-- The parameter-generation lines of a notebook cell:
`parameters = np.random.default_rng(13).uniform(low=0, high=1, size=(n_samples, n_parameters))`
followed by `np.random.seed(1)`.  The legacy global NumPy generator state is
modelled as a plain seed value threaded through the cell; `default_rng`
never touches it, and `np.random.seed(1)` replaces it with `1`. -/
def parameterCell (pcg : Nat → Nat → ℚ) (n_samples n_parameters : Nat)
    (globalState : Nat) : List (List ℚ) × Nat :=
  (default_rng_uniform pcg 13 n_samples n_parameters, (fun _ => 1) globalState)

/-- The array `parameters` as built in the 20-qubit cell: `n_samples = 1000`,
`n_parameters = n_qubits * 3 = 60`. -/
def parameters20 (pcg : Nat → Nat → ℚ) : List (List ℚ) :=
  default_rng_uniform pcg 13 1000 (20 * 3)

/-- The array `parameters` as rebuilt in the 10-qubit Hamiltonian cell:
`n_samples = 1000`, `n_parameters = n_qubits * 3 = 30`. -/
def parameters10 (pcg : Nat → Nat → ℚ) : List (List ℚ) :=
  default_rng_uniform pcg 13 1000 (10 * 3)

/-- The array `parameters` as rebuilt in the two-kernel cell: `n_samples = 500`,
`n_parameters = n_qubits = 10`. -/
def parametersRx (pcg : Nat → Nat → ℚ) : List (List ℚ) :=
  default_rng_uniform pcg 13 500 10

/-- The batches `xi = np.split(parameters, 4)`, computed once from the 20-qubit cell's
`parameters` and never recomputed afterwards. -/
def xiBatches (pcg : Nat → Nat → ℚ) : List (List (List ℚ)) :=
  (npSplit (parameters20 pcg) 4).getD []

/-- The parameter vectors passed to `cudaq.observe` by the 20-qubit cell's
list comprehension, in order: every row of `parameters`. -/
def observeLoopVectors (pcg : Nat → Nat → ℚ) : List (List ℚ) :=
  parameters20 pcg

/-- The parameter vectors passed to `cudaq.observe_async` by an
`asyncresults` submission loop over the (stale) batches `xi`, in order. -/
def asyncLoopVectors (pcg : Nat → Nat → ℚ) : List (List ℚ) :=
  (submitLoop (xiBatches pcg)).map AsyncJob.params

/-- The parameter vectors passed to `cudaq.observe_async` by the
`exp_vals1` and `exp_vals2` comprehensions, in order: every row of the
two-kernel cell's `parameters`, once for `kernel1` and once for `kernel2`. -/
def twoKernelVectors (pcg : Nat → Nat → ℚ) : List (List ℚ) :=
  parametersRx pcg ++ parametersRx pcg

/-- The function `square_loss(labels, predictions)` from the PennyLane notebook:
`loss = 0`, `for l, p in zip(labels, predictions): loss += (l - p) ** 2`,
`loss /= len(labels)`. -/
def square_loss (labels predictions : List ℚ) : ℚ :=
  ((labels.zip predictions).foldl (fun loss lp => loss + (lp.1 - lp.2) ^ 2) 0)
    / labels.length

/-- The function `accuracy(labels, predictions)` from the PennyLane notebook:
`loss = 0`, `for l, p in zip(labels, predictions): if abs(l - p) < 1e-5: loss += 1`,
`loss /= len(labels)`. -/
def accuracy (labels predictions : List ℚ) : ℚ :=
  ((labels.zip predictions).foldl
      (fun loss lp => if |lp.1 - lp.2| < 1 / 100000 then loss + 1 else loss) 0)
    / labels.length

/-- The mean squared error, stated independently of the loop: the sum of the
pointwise squared differences divided by the number of labels. -/
def meanSquaredError (labels predictions : List ℚ) : ℚ :=
  (List.zipWith (fun l p => (l - p) ^ 2) labels predictions).sum / labels.length

theorem length_default_rng_uniform (pcg : Nat → Nat → ℚ) (seed rows cols : Nat) :
    (default_rng_uniform pcg seed rows cols).length = rows := by
  simp [default_rng_uniform]

theorem mem_default_rng_uniform_length (pcg : Nat → Nat → ℚ) (seed rows cols : Nat) :
    ∀ r ∈ default_rng_uniform pcg seed rows cols, r.length = cols := by
  intro r hr
  simp only [default_rng_uniform, List.mem_map, List.mem_range] at hr
  obtain ⟨i, _, rfl⟩ := hr
  simp

theorem foldl_add_sum (g : α → ℚ) :
    ∀ (l : List α) (acc : ℚ), l.foldl (fun a x => a + g x) acc = acc + (l.map g).sum := by
  intro l
  induction l with
  | nil => intro acc; simp
  | cons x xs ih => intro acc; simp [ih, add_assoc]

theorem foldl_count_ite (p : α → Prop) [DecidablePred p] :
    ∀ (l : List α) (acc : ℚ),
      l.foldl (fun a x => if p x then a + 1 else a) acc
        = acc + l.countP (fun x => decide (p x)) := by
  intro l
  induction l with
  | nil => intro acc; simp
  | cons x xs ih =>
      intro acc
      by_cases hx : p x
      · simp [List.countP_cons, hx, ih, add_assoc, add_comm]
      · simp [List.countP_cons, hx, ih]

theorem zip_map_pair_eq_zipWith (f : α → β → γ) :
    ∀ (l₁ : List α) (l₂ : List β),
      (l₁.zip l₂).map (fun q => f q.1 q.2) = List.zipWith f l₁ l₂ := by
  intro l₁
  induction l₁ with
  | nil => intro l₂; simp
  | cons a as ih =>
      intro l₂
      cases l₂ with
      | nil => simp
      | cons b bs => simp [ih]

theorem zip_of_right_shorter :
    ∀ (l₁ : List α) (l₂ : List β), l₂.length ≤ l₁.length →
      l₁.zip l₂ = (l₁.take l₂.length).zip l₂ := by
  intro l₁
  induction l₁ with
  | nil => intro l₂ h; simp
  | cons a as ih =>
      intro l₂ h
      cases l₂ with
      | nil => simp
      | cons b bs => simp [List.zip_cons_cons, ih bs (by simpa using h)]

theorem xiBatches_eq (pcg : Nat → Nat → ℚ) :
    xiBatches pcg = chunkExact 250 4 (parameters20 pcg) := by
  have hlen : (parameters20 pcg).length = 1000 :=
    length_default_rng_uniform pcg 13 1000 (20 * 3)
  simp [xiBatches, npSplit, hlen]

theorem xiBatches_length (pcg : Nat → Nat → ℚ) : (xiBatches pcg).length = 4 := by
  rw [xiBatches_eq]
  exact chunkExact_length 250 4 (parameters20 pcg)

theorem xiBatches_mem_length (pcg : Nat → Nat → ℚ) :
    ∀ b ∈ xiBatches pcg, b.length = 250 := by
  rw [xiBatches_eq]
  exact chunkExact_mem_length 250 4 (parameters20 pcg)
    (by simp [parameters20, length_default_rng_uniform])

theorem xiBatches_row_length (pcg : Nat → Nat → ℚ) :
    ∀ b ∈ xiBatches pcg, ∀ r ∈ b, r.length = 20 * 3 := by
  rw [xiBatches_eq]
  intro b hb r hr
  exact mem_default_rng_uniform_length pcg 13 1000 (20 * 3) r
    (chunkExact_mem_subset 250 4 (parameters20 pcg) b hb r hr)

theorem asyncLoopVectors_length (pcg : Nat → Nat → ℚ) :
    ∀ v ∈ asyncLoopVectors pcg, v.length = 20 * 3 := by
  intro v hv
  simp only [asyncLoopVectors, List.mem_map] at hv
  obtain ⟨job, hjob, rfl⟩ := hv
  obtain ⟨j, hj, _, hp⟩ := (mem_submitFrom job 0 (xiBatches pcg)).mp hjob
  exact xiBatches_row_length pcg _ (List.get_mem _ _ _) job.params hp

theorem asyncLoopVectors_ne_nil (pcg : Nat → Nat → ℚ) :
    asyncLoopVectors pcg ≠ [] := by
  have hrep : (xiBatches pcg).map List.length = List.replicate 4 250 := by
    rw [List.eq_replicate_iff]
    exact ⟨by simp [xiBatches_length], by
      intro n hn
      simp only [List.mem_map] at hn
      obtain ⟨b, hb, rfl⟩ := hn
      exact xiBatches_mem_length pcg b hb⟩
  have hlen : (asyncLoopVectors pcg).length = 1000 := by
    simp [asyncLoopVectors, submitLoop, submitFrom_length, hrep]
  intro hnil
  rw [hnil] at hlen
  simp at hlen

/-- The abstract PCG64 stream instantiated at the constant-zero draw, used to
evaluate the embedding on a concrete input. -/
def pcg0 : Nat → Nat → ℚ := fun _ _ => 0

/-- C1: concatenating, in order, the batches produced by
`xi = np.split(parameters, 4)` reproduces the 1000-row parameter array of
the 20-qubit cell exactly. -/
theorem C1_split_concat_roundtrip (pcg : Nat → Nat → ℚ) :
    ((npSplit (parameters20 pcg) 4).getD []).flatten = parameters20 pcg :=
  npSplit_flatten (parameters20 pcg) 4 (by decide)
    (by simp [parameters20, length_default_rng_uniform])

/-- C2: after the submission loop over every batch and row and the collection
loop over every handle, `len(expvals) == len(asyncresults)` and both equal
the total number of rows over all batches. -/
theorem C2_collected_equals_submitted (xi : List (List α)) (get : AsyncJob α → ℚ) :
    (collectLoop get (submitLoop xi)).length = (submitLoop xi).length ∧
      (submitLoop xi).length = (xi.map List.length).sum := by
  refine ⟨by simp [collectLoop], ?_⟩
  simpa [submitLoop] using submitFrom_length 0 xi

/-- C3: results are retrieved in submission order: the `k`-th element of
`expvals` is the resolved expectation value of the `k`-th future appended to
`asyncresults`. -/
theorem C3_collection_in_submission_order (xi : List (List α)) (get : AsyncJob α → ℚ)
    (k : Nat) (hk : k < (submitLoop xi).length)
    (hk2 : k < (collectLoop get (submitLoop xi)).length) :
    (collectLoop get (submitLoop xi)).get ⟨k, hk2⟩
      = get ((submitLoop xi).get ⟨k, hk⟩) := by
  simp [collectLoop]

theorem C3_witness :
    (collectLoop (fun j => j.params) (submitLoop [[(2 : ℚ)], [3]])).get ⟨1, by decide⟩
      = (fun j => j.params) ((submitLoop [[(2 : ℚ)], [3]]).get ⟨1, by decide⟩) :=
  C3_collection_in_submission_order [[(2 : ℚ)], [3]] (fun j => j.params) 1
    (by decide) (by decide)

/-- C4: parameter generation is deterministic under the fixed seed 13: two
runs of the generation cell with the same `n_samples` and `n_parameters`
produce element-wise identical arrays, whatever the ambient global NumPy
state of each run. -/
theorem C4_fixed_seed_determinism (pcg : Nat → Nat → ℚ)
    (ns₁ np₁ ns₂ np₂ g₁ g₂ : Nat) (hns : ns₁ = ns₂) (hnp : np₁ = np₂) :
    (parameterCell pcg ns₁ np₁ g₁).1 = (parameterCell pcg ns₂ np₂ g₂).1 := by
  subst hns
  subst hnp
  rfl

theorem C4_witness :
    (parameterCell pcg0 1000 60 5).1 = (parameterCell pcg0 1000 60 7).1 :=
  C4_fixed_seed_determinism pcg0 1000 60 1000 60 5 7 rfl rfl

/-- C6: the submission loop partitions work across device identifiers: every
job comes from a row of the batch indexed by its `qpu_id`, every row of batch
`j` is submitted with `qpu_id = j`, and when every batch is nonempty the set
of device identifiers used is exactly `{0, ..., len(xi) - 1}`. -/
theorem C6_qpu_partitioning (xi : List (List α)) :
    (∀ job ∈ submitLoop xi,
        ∃ h : job.qpu_id < xi.length, job.params ∈ xi.get ⟨job.qpu_id, h⟩) ∧
    (∀ j, ∀ h : j < xi.length, ∀ r ∈ xi.get ⟨j, h⟩,
        (⟨j, r⟩ : AsyncJob α) ∈ submitLoop xi) ∧
    ((∀ b ∈ xi, b ≠ []) →
        ∀ k, k ∈ (submitLoop xi).map AsyncJob.qpu_id ↔ k < xi.length) := by
  refine ⟨?_, ?_, ?_⟩
  · intro job hjob
    obtain ⟨j, hj, hq, hp⟩ := (mem_submitFrom job 0 xi).mp hjob
    have hq0 : job.qpu_id = j := by omega
    subst hq0
    exact ⟨hj, hp⟩
  · intro j hj r hr
    exact (mem_submitFrom ⟨j, r⟩ 0 xi).mpr ⟨j, hj, by simp, hr⟩
  · intro hne k
    constructor
    · intro hk
      simp only [List.mem_map] at hk
      obtain ⟨job, hjob, rfl⟩ := hk
      obtain ⟨j, hj, hq, _⟩ := (mem_submitFrom job 0 xi).mp hjob
      omega
    · intro hk
      obtain ⟨r, hr⟩ := List.exists_mem_of_ne_nil _
        (hne (xi.get ⟨k, hk⟩) (List.get_mem xi k hk))
      refine List.mem_map.mpr ⟨⟨k, r⟩, ?_, rfl⟩
      exact (mem_submitFrom ⟨k, r⟩ 0 xi).mpr ⟨k, hk, by simp, hr⟩

theorem C6_witness :
    (0 : Nat) ∈ (submitLoop [[(1 : ℚ)], [2]]).map AsyncJob.qpu_id :=
  ((C6_qpu_partitioning [[(1 : ℚ)], [2]]).2.2 (by decide) 0).mpr (by decide)

set_option maxRecDepth 4000 in
theorem paramCount_makeKernel_20 : paramCount (makeKernel 20) = 60 := by decide

set_option maxRecDepth 4000 in
theorem paramCount_makeKernel_10 : paramCount (makeKernel 10) = 30 := by decide

set_option maxRecDepth 4000 in
theorem paramCount_rxKernel_10 : paramCount (rxKernel 10) = 10 := by decide

/-- C5, counterexample: the claim fails on the code.  Running the cells in
order, the second asynchronous-collection cell re-submits the stale batches
`xi` — rows of the 20-qubit cell's 60-column `parameters` — while the
`kernel` in scope is the 10-qubit kernel, which consumes only 30 parameters;
so not every dispatched vector has the dispatched kernel's parameter count. -/
theorem C5_counterexample :
    ¬ (∀ v ∈ asyncLoopVectors pcg0, v.length = paramCount (makeKernel 10)) := by
  intro hall
  obtain ⟨v, hv⟩ := List.exists_mem_of_ne_nil _ (asyncLoopVectors_ne_nil pcg0)
  have h30 := hall v hv
  have h60 := asyncLoopVectors_length pcg0 v hv
  rw [h60, paramCount_makeKernel_10] at h30
  omega

/-- C5, amended: the parameter arrays of the 20-qubit and 10-qubit cells
have shapes `(1000, 3*20)` and `(1000, 3*30/3)` respectively, and every
vector dispatched by the synchronous observe loop, the first
asynchronous-collection cell, and the `exp_vals1`/`exp_vals2` comprehensions
has length equal to the declared parameter count of the kernel it is
dispatched to; but every vector dispatched by the stale-`xi` cell has length
60, twice the 30-parameter count of the 10-qubit kernel in scope there. -/
theorem C5_shape_consistency_amended (pcg : Nat → Nat → ℚ) :
    ((parameters20 pcg).length = 1000 ∧ ∀ r ∈ parameters20 pcg, r.length = 3 * 20) ∧
    ((parameters10 pcg).length = 1000 ∧ ∀ r ∈ parameters10 pcg, r.length = 3 * 10) ∧
    (∀ v ∈ observeLoopVectors pcg, v.length = paramCount (makeKernel 20)) ∧
    (∀ v ∈ asyncLoopVectors pcg, v.length = paramCount (makeKernel 20)) ∧
    (∀ v ∈ twoKernelVectors pcg, v.length = paramCount (rxKernel 10)) ∧
    (∀ v ∈ asyncLoopVectors pcg, v.length = 2 * paramCount (makeKernel 10)) := by
  have h20 := paramCount_makeKernel_20
  have h10 := paramCount_makeKernel_10
  have hrx := paramCount_rxKernel_10
  refine ⟨⟨length_default_rng_uniform pcg 13 1000 (20 * 3), ?_⟩,
    ⟨length_default_rng_uniform pcg 13 1000 (10 * 3), ?_⟩, ?_, ?_, ?_, ?_⟩
  · intro r hr
    simpa using mem_default_rng_uniform_length pcg 13 1000 (20 * 3) r hr
  · intro r hr
    simpa using mem_default_rng_uniform_length pcg 13 1000 (10 * 3) r hr
  · intro v hv
    rw [h20]
    have hv2 : v ∈ parameters20 pcg := hv
    simpa using mem_default_rng_uniform_length pcg 13 1000 (20 * 3) v hv2
  · intro v hv
    rw [h20]
    simpa using asyncLoopVectors_length pcg v hv
  · intro v hv
    rw [hrx]
    rcases List.mem_append.mp hv with hv | hv
    · exact mem_default_rng_uniform_length pcg 13 500 10 v hv
    · exact mem_default_rng_uniform_length pcg 13 500 10 v hv
  · intro v hv
    rw [h10]
    simpa using asyncLoopVectors_length pcg v hv

theorem C5_shape_consistency_witness :
    ((List.range (20 * 3)).map fun j => pcg0 13 (0 * (20 * 3) + j))
        ∈ observeLoopVectors pcg0 ∧
      ((List.range (20 * 3)).map fun j => pcg0 13 (0 * (20 * 3) + j)).length
        = paramCount (makeKernel 20) := by
  have hm : ((List.range (20 * 3)).map fun j => pcg0 13 (0 * (20 * 3) + j))
      ∈ observeLoopVectors pcg0 := by
    simp only [observeLoopVectors, parameters20, default_rng_uniform, List.mem_map]
    exact ⟨0, by simp, rfl⟩
  exact ⟨hm, (C5_shape_consistency_amended pcg0).2.2.1 _ hm⟩

/-- C7: the driver loops perform no validation, recovery or retries of their
own.  If a result retrieval raises after the calls before it succeeded, the
collection loop stops with exactly the values appended before the failing
call and the exception escapes; likewise, if a dispatch call raises at some
`(qpu_id, row)` pair after every earlier pair succeeded, the nested
submission loop stops with exactly the handles appended before the failing
call and the exception escapes. -/
theorem C7_no_recovery_or_retries (ρ ε β φ : Type) :
    (∀ (get : AsyncJob ρ → Except ε β) (pre : List (AsyncJob ρ))
        (a : AsyncJob ρ) (post : List (AsyncJob ρ)) (e : ε),
      (∀ x ∈ pre, (get x).toOption.isSome) → get a = .error e →
        runAppend get (pre ++ a :: post)
          = (pre.filterMap (fun x => (get x).toOption), some e)) ∧
    (∀ (dispatch : Nat → ρ → Except ε φ) (xi : List (List ρ))
        (pre : List (Nat × ρ)) (p : Nat × ρ) (post : List (Nat × ρ)) (e : ε),
      pairsFrom 0 xi = pre ++ p :: post →
      (∀ q ∈ pre, (dispatch q.1 q.2).toOption.isSome) →
      dispatch p.1 p.2 = .error e →
        runSubmit dispatch 0 xi
          = (pre.filterMap (fun q => (dispatch q.1 q.2).toOption), some e)) := by
  constructor
  · intro get pre a post e hpre ha
    exact runAppend_ok_initial_error get e pre a post hpre ha
  · intro dispatch xi pre p post e hpairs hpre hp
    rw [runSubmit_eq_runAppend dispatch 0 xi, hpairs]
    exact runAppend_ok_initial_error _ e pre p post hpre hp

/-- A fallible retrieval used to evaluate the error model on a concrete
input: handles tagged with device 0 resolve, all others raise. -/
def getFail0 : AsyncJob ℚ → Except Nat ℚ :=
  fun j => if j.qpu_id = 0 then .ok j.params else .error 7

/-- A fallible dispatch used to evaluate the error model on a concrete
input: submissions to device 0 succeed, all others raise. -/
def dispatchFail0 : Nat → ℚ → Except Nat (AsyncJob ℚ) :=
  fun i r => if i = 0 then .ok ⟨i, r⟩ else .error 3

theorem C7_no_recovery_witness :
    runAppend getFail0 ([⟨0, 1⟩] ++ (⟨1, 2⟩ : AsyncJob ℚ) :: [])
        = ([(⟨0, 1⟩ : AsyncJob ℚ)].filterMap (fun x => (getFail0 x).toOption), some 7) ∧
      runSubmit dispatchFail0 0 [[(5 : ℚ)], [6]]
        = ([((0 : Nat), (5 : ℚ))].filterMap (fun q => (dispatchFail0 q.1 q.2).toOption), some 3) :=
  ⟨(C7_no_recovery_or_retries ℚ Nat ℚ (AsyncJob ℚ)).1 getFail0 [⟨0, 1⟩] ⟨1, 2⟩ [] 7
      (by decide) rfl,
    (C7_no_recovery_or_retries ℚ Nat ℚ (AsyncJob ℚ)).2 dispatchFail0 [[(5 : ℚ)], [6]]
      [((0 : Nat), (5 : ℚ))] ((1 : Nat), (6 : ℚ)) [] 3 rfl (by decide) rfl⟩

/-- C8: `np.split(parameters, 4)` succeeds exactly when the number of rows
is divisible by 4 (raising otherwise); under that precondition it returns
exactly 4 batches of `rows/4` rows each, every batch row being a row of the
original array; with the notebook's 1000 rows, each batch has 250 rows. -/
theorem C8_split_equal_division (xs : List (List ℚ)) :
    ((npSplit xs 4).isSome ↔ xs.length % 4 = 0) ∧
    (∀ m, xs.length = 4 * m → ∀ bs, npSplit xs 4 = some bs →
        bs.length = 4 ∧ ∀ b ∈ bs, b.length = m ∧ ∀ r ∈ b, r ∈ xs) ∧
    (xs.length = 1000 → ∀ bs, npSplit xs 4 = some bs → ∀ b ∈ bs, b.length = 250) := by
  have key : ∀ m, xs.length = 4 * m → ∀ bs, npSplit xs 4 = some bs →
      bs.length = 4 ∧ ∀ b ∈ bs, b.length = m ∧ ∀ r ∈ b, r ∈ xs := by
    intro m hm bs hbs
    have hmod : xs.length % 4 = 0 := by omega
    have hdiv : xs.length / 4 = m := by omega
    rw [npSplit] at hbs
    simp only [hmod, hdiv, and_self, ne_eq, OfNat.ofNat_ne_zero, not_false_eq_true,
      if_pos, Option.some_inj] at hbs
    subst hbs
    refine ⟨chunkExact_length m 4 xs, fun b hb => ⟨?_, fun r hr => ?_⟩⟩
    · exact chunkExact_mem_length m 4 xs (by omega) b hb
    · exact chunkExact_mem_subset m 4 xs b hb r hr
  refine ⟨npSplit_isSome_iff xs 4 (by decide), key, ?_⟩
  intro h1000 bs hbs b hb
  exact ((key 250 (by omega) bs hbs).2 b hb).1

theorem C8_split_equal_division_witness :
    (List.replicate 1000 ([] : List ℚ)).length = 1000 ∧
      npSplit (List.replicate 1000 ([] : List ℚ)) 4
        = some (chunkExact 250 4 (List.replicate 1000 ([] : List ℚ))) ∧
      ∀ b ∈ chunkExact 250 4 (List.replicate 1000 ([] : List ℚ)), b.length = 250 := by
  have h1000 : (List.replicate 1000 ([] : List ℚ)).length = 1000 := by
    rw [List.length_replicate]
  have hsome : npSplit (List.replicate 1000 ([] : List ℚ)) 4
      = some (chunkExact 250 4 (List.replicate 1000 ([] : List ℚ))) := by
    unfold npSplit
    rw [h1000]
    norm_num
  exact ⟨h1000, hsome,
    (C8_split_equal_division (List.replicate 1000 ([] : List ℚ))).2.2 h1000 _ hsome⟩

/-- C9: `square_loss(labels, predictions)` is the sum of `(l - p)^2` over
the pairs produced by `zip(labels, predictions)` divided by `len(labels)`;
for equal-length non-empty sequences it is the mean squared error, and when
`predictions` is shorter the divisor is still `len(labels)`, the unmatched
labels contributing nothing. -/
theorem C9_square_loss_mse (labels predictions : List ℚ) :
    square_loss labels predictions
      = ((labels.zip predictions).map (fun q => (q.1 - q.2) ^ 2)).sum
          / (labels.length : ℚ) ∧
    (labels.length = predictions.length → labels ≠ [] →
      square_loss labels predictions = meanSquaredError labels predictions) ∧
    (predictions.length ≤ labels.length →
      square_loss labels predictions
        = (((labels.take predictions.length).zip predictions).map
            (fun q => (q.1 - q.2) ^ 2)).sum / (labels.length : ℚ)) := by
  have hsum : square_loss labels predictions
      = ((labels.zip predictions).map (fun q => (q.1 - q.2) ^ 2)).sum
          / (labels.length : ℚ) := by
    rw [square_loss, foldl_add_sum, zero_add]
  refine ⟨hsum, fun _ _ => ?_, fun hshort => ?_⟩
  · rw [hsum, meanSquaredError, ← zip_map_pair_eq_zipWith]
  · rw [hsum, zip_of_right_shorter labels predictions hshort]

theorem C9_square_loss_witness :
    ([(3 : ℚ)].length : Nat) ≤ ([(1 : ℚ), 2].length : Nat) ∧
      square_loss [(1 : ℚ), 2] [3]
        = ((([(1 : ℚ), 2].take [(3 : ℚ)].length).zip [(3 : ℚ)]).map
            (fun q => (q.1 - q.2) ^ 2)).sum / (([(1 : ℚ), 2].length : Nat) : ℚ) :=
  ⟨by decide, (C9_square_loss_mse [(1 : ℚ), 2] [(3 : ℚ)]).2.2 (by decide)⟩

/-- C10: `accuracy(labels, predictions)` is the count of zipped pairs with
`|l - p| < 1e-5` divided by `len(labels)`; for non-empty labels with at
least as many predictions the result lies in `[0, 1]`, and it equals 1
exactly when every label is matched within the tolerance. -/
theorem C10_accuracy_bounds (labels predictions : List ℚ) :
    accuracy labels predictions
      = (((labels.zip predictions).countP
            (fun q => decide (|q.1 - q.2| < 1 / 100000)) : Nat) : ℚ)
          / (labels.length : ℚ) ∧
    (labels ≠ [] → labels.length ≤ predictions.length →
      0 ≤ accuracy labels predictions ∧ accuracy labels predictions ≤ 1 ∧
        (accuracy labels predictions = 1 ↔
          ∀ q ∈ labels.zip predictions, |q.1 - q.2| < 1 / 100000)) := by
  have hcount : accuracy labels predictions
      = (((labels.zip predictions).countP
            (fun q => decide (|q.1 - q.2| < 1 / 100000)) : Nat) : ℚ)
          / (labels.length : ℚ) := by
    rw [accuracy, foldl_count_ite (fun q : ℚ × ℚ => |q.1 - q.2| < 1 / 100000), zero_add]
  refine ⟨hcount, fun hne hlen => ?_⟩
  have hzlen : (labels.zip predictions).length = labels.length := by
    simp [List.length_zip, Nat.min_eq_left hlen]
  have hpos : 0 < labels.length := List.length_pos.mpr hne
  have hposQ : (0 : ℚ) < (labels.length : ℚ) := by exact_mod_cast hpos
  have hcle : (labels.zip predictions).countP
      (fun q => decide (|q.1 - q.2| < 1 / 100000)) ≤ labels.length := by
    rw [← hzlen]
    exact List.countP_le_length _
  refine ⟨?_, ?_, ?_⟩
  · rw [hcount]
    exact div_nonneg (by positivity) (le_of_lt hposQ)
  · rw [hcount]
    rw [div_le_one hposQ]
    exact_mod_cast hcle
  · rw [hcount, div_eq_one_iff_eq (ne_of_gt hposQ)]
    rw [show ((labels.length : Nat) : ℚ)
        = (((labels.zip predictions).length : Nat) : ℚ) by exact_mod_cast hzlen.symm]
    rw [Nat.cast_inj, List.countP_eq_length]
    constructor
    · intro hall q hq
      exact of_decide_eq_true (hall q hq)
    · intro hall q hq
      exact decide_eq_true (hall q hq)

theorem C10_accuracy_witness :
    0 ≤ accuracy [(1 : ℚ)] [1] ∧ accuracy [(1 : ℚ)] [1] ≤ 1 ∧
      (accuracy [(1 : ℚ)] [1] = 1 ↔
        ∀ q ∈ [(1 : ℚ)].zip [(1 : ℚ)], |q.1 - q.2| < 1 / 100000) :=
  (C10_accuracy_bounds [(1 : ℚ)] [(1 : ℚ)]).2 (by decide) (by decide)

end QuantumWorkshop
